import Mathlib

/-!
Verification of the numerical kernels of the teaching repository.

The repository contains two specifiable kernels:

* `codes/02-fft.py`: a reference DFT/IDFT (dense matrix-vector product) and a
  recursive radix-2 decimation-in-frequency FFT, plus an unimplemented IFFT
  and an FFT-based integer-multiplication demo.
* `03-fd-poisson.py`: assembly of the 2D finite-difference Poisson system
  matrix (Kronecker construction) and of the right-hand-side vector
  (source term plus strided boundary-slice additions).

The Python code computes with floating-point complex numbers.  Following the
claims ("exactly over exact complex arithmetic"), the Fourier kernels are
embedded over an abstract commutative ring `R` parametrised by the twiddle
root `ω`, which stands for the concrete complex number `exp (-2*π*i/N)` used
by the source; the recursive half-size call of the source then uses
`exp (-2*π*i/M) = ω^2`.  Python exceptions are modelled with `Except`.
-/

namespace Fourier

/-- The Python exception kinds that the embedded kernels can raise:
`valueError` (raised by `math.log2 0`), `assertionError` (raised by a failed
`assert` statement) and `notImplementedError` (`raise NotImplementedError`). -/
inductive PyErr where
  | valueError
  | assertionError
  | notImplementedError
deriving DecidableEq

/-- The power-of-two test `math.log2(N).is_integer()` performed by `FFT` for
`N ≥ 1` (for `N = 0` the source raises before the test, see `FFT`). -/
def pow2b : ℕ → Bool
  | 0 => false
  | 1 => true
  | n + 2 => ((n + 2) % 2 == 0) && pow2b ((n + 2) / 2)
termination_by n => n
decreasing_by omega

variable {R : Type} [CommRing R]

/-- Row `k` of the DFT matrix-vector product: the source builds the matrix
`M` with `M[k][n] = exp(-2j*pi*k*n/N)` and returns `np.dot(M, x)`; with
`ω = exp (-2*π*i/N)` the entry is `ω ^ (k*n)` and row `k` of the product is
the sum below. -/
def dftCoef (ω : R) (x : List R) (k : ℕ) : R :=
  ∑ n ∈ Finset.range x.length, ω ^ (k * n) * x.getD n 0

/-- `DFT(x)` from the source: the matrix-vector product `np.dot(M, x)`,
one `dftCoef` per output index. -/
def DFT (ω : R) (x : List R) : List R :=
  (List.range x.length).map (dftCoef ω x)

/-- `x_even` of the source: `[(x[k]+x[k+M]) for k in range(M)]`. -/
def evenPart (x : List R) (M : ℕ) : List R :=
  (List.range M).map fun k => x.getD k 0 + x.getD (k + M) 0

/-- `x_odd` of the source: `[(x[k]-x[k+M]) for k in range(M)]`. -/
def oddPart (x : List R) (M : ℕ) : List R :=
  (List.range M).map fun k => x.getD k 0 - x.getD (k + M) 0

/-- `factor` of the source: `[np.exp(-2*np.pi*1j*k/N) for k in range(M)]`,
i.e. `ω ^ k` with `ω = exp (-2*π*i/N)`. -/
def factorList (ω : R) (M : ℕ) : List R :=
  (List.range M).map fun k => ω ^ k

/-- `result[::2] = a; result[1::2] = b` of the source: the even positions of
the result hold `a`, the odd positions hold `b`. -/
def interleave : List R → List R → List R
  | [], _ => []
  | _ :: _, [] => []
  | a :: as, b :: bs => a :: b :: interleave as bs

/-- `FFT(x)` from the source.  Control flow of the Python function:
`math.log2 N` raises `ValueError` for `N = 0` (before `.is_integer()` can
run); the `assert math.log2(N).is_integer()` raises `AssertionError` when
`N` is not a power of two; `N <= 1` returns `[x[0]]`; otherwise the function
recurses on the butterfly halves (at half length the twiddle base is `ω^2`)
and interleaves the two sub-results. -/
def FFT (ω : R) (x : List R) : Except PyErr (List R) :=
  if h0 : x.length = 0 then .error .valueError
  else if hp : pow2b x.length = false then .error .assertionError
  else if h1 : x.length ≤ 1 then .ok [x.getD 0 0]
  else
    (FFT (ω ^ 2) (evenPart x (x.length / 2))).bind fun a =>
      (FFT (ω ^ 2) (List.zipWith (· * ·) (factorList ω (x.length / 2))
          (oddPart x (x.length / 2)))).bind fun b =>
        .ok (interleave a b)
termination_by x.length
decreasing_by
  · simp only [evenPart, List.length_map, List.length_range]
    omega
  · simp only [List.length_zipWith, factorList, oddPart, List.length_map, List.length_range,
      min_self]
    omega

/-- `IFFT(X)` from the source: `raise NotImplementedError`, unconditionally. -/
def IFFT (X : List R) : Except PyErr (List R) :=
  .error .notImplementedError

variable {K : Type} [Field K]

/-- Row `n` of the IDFT matrix-vector product: the source builds the matrix
`m` with `m[n][k] = 1/N * exp(2j*pi*k*n/N)` and returns `np.dot(m, X)`; with
`ωi = exp (2*π*i/N)` (the conjugate, i.e. inverse, of the DFT root) the
entry is `1/N * ωi ^ (k*n)`. -/
def idftCoef (ωi : K) (X : List K) (n : ℕ) : K :=
  ∑ k ∈ Finset.range X.length, (X.length : K)⁻¹ * ωi ^ (k * n) * X.getD k 0

/-- `IDFT(X)` from the source: the matrix-vector product `np.dot(m, X)`,
one `idftCoef` per output index. -/
def IDFT (ωi : K) (X : List K) : List K :=
  (List.range X.length).map (idftCoef ωi X)

/-- The FFT-multiplication demo of the source, parametrised by the field and
the length-8 twiddle root `ω` (standing for `exp (-2*π*i/8)`):
`a = [4,3,2,1,0,0,0,0]` (digits of 1234), `b = [8,7,6,5,0,0,0,0]` (digits of
5678), `af = FFT(a)`, `bf = FFT(b)`, `cf = np.multiply(af, bf)`,
`c = IDFT(cf)` (whose root `exp (2*π*i/8)` is `ω⁻¹`), and the final number
`np.dot(c, powers)` with `powers = [10**i for i in range(8)]`.  In exact
arithmetic the dot product is exactly the integer that the source recovers
after rounding the real part. -/
def fftMulDemo (K : Type) [Field K] (ω : K) : Except PyErr K :=
  (FFT ω ([4, 3, 2, 1, 0, 0, 0, 0] : List K)).bind fun af =>
    (FFT ω ([8, 7, 6, 5, 0, 0, 0, 0] : List K)).bind fun bf =>
      .ok ((List.zipWith (· * ·)
            (IDFT ω⁻¹ (List.zipWith (· * ·) af bf))
            ((List.range 8).map fun i => (10 : K) ^ i)).sum)

/-- Length-`N` circular convolution, the reference value that the
FFT-multiply-IDFT pipeline computes (convolution theorem). -/
def circConv (a b : List R) (N : ℕ) : List R :=
  (List.range N).map fun n =>
    ∑ p ∈ Finset.range N, ∑ q ∈ Finset.range N,
      if (p + q) % N = n then a.getD p 0 * b.getD q 0 else 0

end Fourier

namespace Poisson

open Matrix

/-- `sp.sparse.diags([1, -2, 1], [-1, 0, 1], shape=(n, n)).toarray()`:
the tridiagonal second-difference matrix with `-2` on the main diagonal and
`1` on the sub- and super-diagonal.  The source builds it twice, as `dxx`
and as `dyy`, with identical values. -/
def dmat (K : Type) [Ring K] (n : ℕ) : Matrix (Fin n) (Fin n) K :=
  Matrix.of fun i j =>
    if (i : ℕ) = (j : ℕ) then -2
    else if (i : ℕ) = (j : ℕ) + 1 ∨ (j : ℕ) = (i : ℕ) + 1 then 1
    else 0

/-- `setupSystemMatrix(N)` from the source:
`-(np.kron(dyy, Ix) + np.kron(Iy, dxx))` with `dxx = dyy = dmat (N-2)` and
`Ix = Iy = np.identity(N-2)`.  `np.kron` flattens index pairs row-major;
here the pair `(i, j)` stands for numpy's flat index `i*(N-2) + j`. -/
def setupSystemMatrix (K : Type) [CommRing K] (N : ℕ) :
    Matrix (Fin (N - 2) × Fin (N - 2)) (Fin (N - 2) × Fin (N - 2)) K :=
  - (Matrix.kroneckerMap (· * ·) (dmat K (N - 2)) (1 : Matrix (Fin (N - 2)) (Fin (N - 2)) K)
     + Matrix.kroneckerMap (· * ·) (1 : Matrix (Fin (N - 2)) (Fin (N - 2)) K) (dmat K (N - 2)))

/-- The interior grid coordinates of the source: `L = 1`, `d = L/(N-1)`,
`xVals = yVals = [i*d for i in range(1, N-1)]`; the `m`-th entry is
`(m+1) * d`. -/
def gridVal (N m : ℕ) : ℚ := ((m : ℚ) + 1) * (1 / ((N : ℚ) - 1))

/-- Numpy strided-slice in-place addition `b[start :: step] += v` with `len`
added entries: entry `k` of the result is `b k + v m` when
`k = start + m*step` for the (unique, as `step > 0`) index `m < len`, and
`b k` otherwise.  The addition is `+=`: previous contents are kept. -/
def addSlice (b : ℕ → ℚ) (start step len : ℕ) (v : ℕ → ℚ) : ℕ → ℚ := fun k =>
  if start ≤ k ∧ (k - start) % step = 0 ∧ (k - start) / step < len then
    b k + v ((k - start) / step)
  else b k

/-- `evalSource(source, xVals, yVals).reshape((N-2)**2)` from the source:
the row-major flattening of `[[source(xVals[i], yVals[j]) for j ...] for i ...]`;
flat index `k` holds `source xVals[k/(N-2)] yVals[k%(N-2)]`. -/
def evalSourceFlat (N : ℕ) (source : ℚ → ℚ → ℚ) : ℕ → ℚ := fun k =>
  source (gridVal N (k / (N - 2))) (gridVal N (k % (N - 2)))

/-- `setupRHSVector(source, bot, right, top, left)` from the source:
`b = np.zeros((N-2)**2)`, then in order
`b += evalSource(source, xVals, yVals)`,
`b[:(N-2)] += evalBot(bot, xVals)`,
`b[(N-3):(N-2)*(N-2):(N-2)] += evalRight(right, yVals)`,
`b[(N-3)*(N-2):] += evalTop(top, xVals)`,
`b[0:(N-3)*(N-2)+1:(N-2)] += evalLeft(left, yVals)`.
Each strided slice has exactly `N-2` entries, matching the added vector. -/
def setupRHSVector (N : ℕ) (source : ℚ → ℚ → ℚ) (bot right top left : ℚ → ℚ) : ℕ → ℚ :=
  addSlice
    (addSlice
      (addSlice
        (addSlice (fun k => 0 + evalSourceFlat N source k)
          0 1 (N - 2) (fun m => bot (gridVal N m)))
        (N - 3) (N - 2) (N - 2) (fun m => right (gridVal N m)))
      ((N - 3) * (N - 2)) 1 (N - 2) (fun m => top (gridVal N m)))
    0 (N - 2) (N - 2) (fun m => left (gridVal N m))

/-- Proof helper (not from the source): the superdiagonal shift matrix,
used to decompose the second-difference matrix in the definiteness proof. -/
def shiftUp (K : Type) [Ring K] (n : ℕ) : Matrix (Fin n) (Fin n) K :=
  Matrix.of fun i j => if (j : ℕ) = (i : ℕ) + 1 then 1 else 0

end Poisson

/-! ## Lemmas about the power-of-two test -/

namespace Fourier

/-- Unfolding of `pow2b` on arguments of size at least two. -/
lemma pow2b_two_step (n : ℕ) (h : 2 ≤ n) :
    pow2b n = (((n % 2 == 0)) && pow2b (n / 2)) := by
  obtain ⟨m, rfl⟩ : ∃ m, n = m + 2 := ⟨n - 2, by omega⟩
  rw [pow2b]

/-- `pow2b` is a correct power-of-two test. -/
lemma pow2b_iff (n : ℕ) : pow2b n = true ↔ ∃ t : ℕ, n = 2 ^ t := by
  induction n using Nat.strong_induction_on with
  | _ n ih =>
    match n with
    | 0 =>
      simp only [pow2b, Bool.false_eq_true, false_iff, not_exists]
      intro t ht
      exact absurd ht.symm (by positivity : (0:ℕ) < 2 ^ t).ne'
    | 1 =>
      simp only [pow2b, true_iff]
      exact ⟨0, rfl⟩
    | (m + 2) =>
      rw [pow2b_two_step (m + 2) (by omega)]
      constructor
      · intro h
        have h1 : (m + 2) % 2 = 0 := by
          have := (Bool.and_eq_true _ _).mp h |>.1
          simpa using this
        have h2 : pow2b ((m + 2) / 2) = true := (Bool.and_eq_true _ _).mp h |>.2
        obtain ⟨t, ht⟩ := (ih ((m + 2) / 2) (by omega)).mp h2
        exact ⟨t + 1, by omega⟩
      · rintro ⟨t, ht⟩
        have ht1 : 1 ≤ t := by
          by_contra hc
          interval_cases t <;> omega
        have hval : m + 2 = 2 * 2 ^ (t - 1) := by
          have ht' : t = (t - 1) + 1 := by omega
          rw [ht', pow_succ] at ht
          omega
        have hhalf : (m + 2) / 2 = 2 ^ (t - 1) := by omega
        have hmod : (m + 2) % 2 = 0 := by omega
        rw [Bool.and_eq_true]
        constructor
        · simpa using hmod
        · exact (ih ((m + 2) / 2) (by omega)).mpr ⟨t - 1, hhalf⟩

/-- Powers of two pass the power-of-two test. -/
lemma pow2b_pow (t : ℕ) : pow2b (2 ^ t) = true :=
  (pow2b_iff _).mpr ⟨t, rfl⟩

/-! ## List access helper lemmas -/

variable {R : Type} [CommRing R]

lemma getD_map_range {f : ℕ → R} {M k : ℕ} (h : k < M) :
    (((List.range M).map f).getD k 0) = f k := by
  rw [List.getD_eq_getElem _ _ (by simpa using h)]
  simp

lemma DFT_length (ω : R) (x : List R) : (DFT ω x).length = x.length := by
  simp [DFT]

lemma DFT_getD (ω : R) (x : List R) {k : ℕ} (h : k < x.length) :
    (DFT ω x).getD k 0 = dftCoef ω x k :=
  getD_map_range h

lemma evenPart_length (x : List R) (M : ℕ) : (evenPart x M).length = M := by
  simp [evenPart]

lemma oddPart_length (x : List R) (M : ℕ) : (oddPart x M).length = M := by
  simp [oddPart]

lemma evenPart_getD (x : List R) {M k : ℕ} (h : k < M) :
    (evenPart x M).getD k 0 = x.getD k 0 + x.getD (k + M) 0 :=
  getD_map_range h

/-- The list `np.multiply(factor, x_odd)` handed to the second recursive
call: its `k`-th entry is `ω^k * (x[k] - x[k+M])`. -/
lemma twiddledOdd_getD (ω : R) (x : List R) {M k : ℕ} (h : k < M) :
    (List.zipWith (· * ·) (factorList ω M) (oddPart x M)).getD k 0
      = ω ^ k * (x.getD k 0 - x.getD (k + M) 0) := by
  have hlen : k < (List.zipWith (· * ·) (factorList ω M) (oddPart x M)).length := by
    simp [List.length_zipWith, factorList, oddPart]
    omega
  rw [List.getD_eq_getElem _ _ hlen, List.getElem_zipWith]
  simp [factorList, oddPart]

lemma twiddledOdd_length (ω : R) (x : List R) (M : ℕ) :
    (List.zipWith (· * ·) (factorList ω M) (oddPart x M)).length = M := by
  simp [List.length_zipWith, factorList, oddPart]

/-! ## Interleaving lemmas -/

lemma interleave_length :
    ∀ (a b : List R), a.length = b.length → (interleave a b).length = 2 * a.length
  | [], _, _ => by simp [interleave]
  | _ :: _, [], h => by simp at h
  | x :: xs, y :: ys, h => by
    simp only [interleave, List.length_cons]
    rw [interleave_length xs ys (by simpa using h)]
    omega

lemma interleave_getD_even :
    ∀ (a b : List R) (j : ℕ), a.length = b.length → j < a.length →
      (interleave a b).getD (2 * j) 0 = a.getD j 0
  | [], _, j, _, h => by simp at h
  | _ :: _, [], j, hl, h => by simp at hl
  | x :: xs, y :: ys, 0, _, _ => by simp [interleave]
  | x :: xs, y :: ys, j + 1, hl, h => by
    have h2 : 2 * (j + 1) = (2 * j + 1) + 1 := by omega
    simp only [interleave, h2, List.getD_cons_succ]
    exact interleave_getD_even xs ys j (by simpa using hl) (by simpa using h)

lemma interleave_getD_odd :
    ∀ (a b : List R) (j : ℕ), a.length = b.length → j < b.length →
      (interleave a b).getD (2 * j + 1) 0 = b.getD j 0
  | [], _, j, hl, h => by rw [← hl] at h; simp at h
  | _ :: _, [], j, _, h => by simp at h
  | x :: xs, y :: ys, 0, _, _ => by simp [interleave]
  | x :: xs, y :: ys, j + 1, hl, h => by
    have h2 : 2 * (j + 1) + 1 = (2 * j + 1) + 2 := by omega
    simp only [interleave, h2, List.getD_cons_succ]
    exact interleave_getD_odd xs ys j (by simpa using hl) (by simpa using h)

/-! ## The decimation-in-frequency butterfly identities -/

/-- Splitting a sum over `range (2*M)` into the two butterfly halves. -/
lemma sum_range_two_mul (M : ℕ) (f : ℕ → R) :
    ∑ n ∈ Finset.range (2 * M), f n
      = ∑ n ∈ Finset.range M, f n + ∑ n ∈ Finset.range M, f (n + M) := by
  rw [← Finset.sum_range_add_sum_Ico f (by omega : M ≤ 2 * M),
    Finset.sum_Ico_eq_sum_range]
  have h2 : 2 * M - M = M := by omega
  rw [h2]
  congr 1
  exact Finset.sum_congr rfl fun n _ => by rw [add_comm]

/-- Even-indexed DFT coefficients are the half-size DFT of `x_even`. -/
lemma dftCoef_even (ω : R) (x : List R) {M : ℕ} (j : ℕ) (hM : 0 < M)
    (hlen : x.length = 2 * M) (hω : ω ^ M = -1) :
    dftCoef ω x (2 * j) = dftCoef (ω ^ 2) (evenPart x M) j := by
  have hpow : ∀ n : ℕ, (ω ^ 2) ^ (j * n) = ω ^ (2 * j * n) := by
    intro n
    rw [← pow_mul]
    ring_nf
  have hshift : ∀ n : ℕ, ω ^ (2 * j * (n + M)) = ω ^ (2 * j * n) := by
    intro n
    have h1 : ω ^ (M * (2 * j)) = 1 := by
      rw [pow_mul, hω]
      exact Even.neg_one_pow ⟨j, by ring⟩
    rw [show 2 * j * (n + M) = 2 * j * n + M * (2 * j) from by ring, pow_add, h1, mul_one]
  unfold dftCoef
  rw [hlen, evenPart_length, sum_range_two_mul]
  rw [← Finset.sum_add_distrib]
  refine Finset.sum_congr rfl fun n hn => ?_
  have hnM : n < M := Finset.mem_range.mp hn
  rw [evenPart_getD x hnM, hshift n, hpow n]
  ring

/-- Odd-indexed DFT coefficients are the half-size DFT of the twiddled
`x_odd`. -/
lemma dftCoef_odd (ω : R) (x : List R) {M : ℕ} (j : ℕ) (hM : 0 < M)
    (hlen : x.length = 2 * M) (hω : ω ^ M = -1) :
    dftCoef ω x (2 * j + 1)
      = dftCoef (ω ^ 2) (List.zipWith (· * ·) (factorList ω M) (oddPart x M)) j := by
  have hshift : ∀ n : ℕ, ω ^ ((2 * j + 1) * (n + M)) = - ω ^ ((2 * j + 1) * n) := by
    intro n
    have hneg : ((-1 : R)) ^ (2 * j + 1) = -1 := Odd.neg_one_pow ⟨j, by ring⟩
    have h1 : ω ^ (M * (2 * j + 1)) = -1 := by
      rw [pow_mul, hω, hneg]
    rw [show (2 * j + 1) * (n + M) = (2 * j + 1) * n + M * (2 * j + 1) from by ring,
      pow_add, h1, mul_neg_one]
  have hpow : ∀ n : ℕ, ω ^ ((2 * j + 1) * n) = (ω ^ 2) ^ (j * n) * ω ^ n := by
    intro n
    rw [← pow_mul, ← pow_add]
    congr 1
    ring
  unfold dftCoef
  rw [hlen, twiddledOdd_length, sum_range_two_mul]
  rw [← Finset.sum_add_distrib]
  refine Finset.sum_congr rfl fun n hn => ?_
  have hnM : n < M := Finset.mem_range.mp hn
  rw [twiddledOdd_getD ω x hnM, hshift n, hpow n]
  ring

end Fourier

namespace Fourier

variable {R : Type} [CommRing R]

/-! ## FFT computes the DFT -/

/-- Extensionality for lists via `getD`. -/
lemma list_ext_getD (a b : List R) (hlen : a.length = b.length)
    (h : ∀ i, i < a.length → a.getD i 0 = b.getD i 0) : a = b := by
  refine List.ext_getElem hlen fun i h1 h2 => ?_
  have hd := h i h1
  rwa [List.getD_eq_getElem a 0 h1, List.getD_eq_getElem b 0 h2] at hd

/-- Interleaving the two half-size DFTs yields the full-size DFT: the
decimation-in-frequency identity behind the source's recursion. -/
lemma interleave_DFT (ω : R) (x : List R) {M : ℕ} (hM : 0 < M)
    (hlen : x.length = 2 * M) (hω : ω ^ M = -1) :
    interleave (DFT (ω ^ 2) (evenPart x M))
      (DFT (ω ^ 2) (List.zipWith (· * ·) (factorList ω M) (oddPart x M)))
      = DFT ω x := by
  have hea : (DFT (ω ^ 2) (evenPart x M)).length = M := by
    rw [DFT_length, evenPart_length]
  have hob : (DFT (ω ^ 2) (List.zipWith (· * ·) (factorList ω M) (oddPart x M))).length
      = M := by
    rw [DFT_length, twiddledOdd_length]
  have heq : (DFT (ω ^ 2) (evenPart x M)).length
      = (DFT (ω ^ 2) (List.zipWith (· * ·) (factorList ω M) (oddPart x M))).length := by
    rw [hea, hob]
  apply list_ext_getD
  · rw [interleave_length _ _ heq, hea, DFT_length, hlen]
  · intro i hi
    rw [interleave_length _ _ heq, hea] at hi
    rcases Nat.even_or_odd i with ⟨j, hj⟩ | ⟨j, hj⟩
    · have hj2 : i = 2 * j := by omega
      have hjM : j < M := by omega
      subst hj2
      rw [interleave_getD_even _ _ j heq (by rw [hea]; exact hjM),
        DFT_getD _ _ (by rw [evenPart_length]; exact hjM),
        DFT_getD _ _ (by rw [hlen]; omega : 2 * j < x.length),
        dftCoef_even ω x j hM hlen hω]
    · have hjM : j < M := by omega
      subst hj
      rw [interleave_getD_odd _ _ j heq (by rw [hob]; exact hjM),
        DFT_getD _ _ (by rw [twiddledOdd_length]; exact hjM),
        DFT_getD _ _ (by rw [hlen]; omega : 2 * j + 1 < x.length),
        dftCoef_odd ω x j hM hlen hω]

/-- On inputs of length `2^t`, with a twiddle root satisfying
`ω^(2^(t-1)) = -1` (the defining property of `exp (-2*π*i/2^t)`), the
recursive FFT succeeds and returns exactly the DFT of its input. -/
lemma FFT_eq_DFT_aux :
    ∀ (t : ℕ) (ω : R) (x : List R), x.length = 2 ^ t →
      (1 ≤ t → ω ^ 2 ^ (t - 1) = -1) → FFT ω x = .ok (DFT ω x) := by
  intro t
  induction t with
  | zero =>
    intro ω x hx _
    rw [FFT, dif_neg (by omega), dif_neg (by rw [hx]; simp [pow2b]),
      dif_pos (by omega)]
    congr 1
    apply list_ext_getD
    · rw [DFT_length, hx]
      rfl
    · intro i hi
      have hi0 : i = 0 := by simpa using hi
      subst hi0
      rw [DFT_getD _ _ (by rw [hx]; omega)]
      unfold dftCoef
      rw [hx]
      simp
  | succ t ih =>
    intro ω x hx hω
    have hω' : ω ^ 2 ^ t = -1 := by simpa using hω (by omega)
    have h2t : (2:ℕ) ^ (t + 1) = 2 * 2 ^ t := by rw [pow_succ]; ring
    have hhalf : x.length / 2 = 2 ^ t := by rw [hx, h2t]; omega
    have hlen2 : x.length = 2 * 2 ^ t := by rw [hx, h2t]
    rw [FFT, dif_neg (by rw [hx]; positivity), dif_neg (by rw [hx]; simp [pow2b_pow]),
      dif_neg (by rw [hx, h2t]; have := Nat.one_le_two_pow (n := t); omega), hhalf]
    have hsq : 1 ≤ t → (ω ^ 2) ^ 2 ^ (t - 1) = -1 := by
      intro ht
      rw [← pow_mul, ← pow_succ']
      have he : t - 1 + 1 = t := by omega
      rw [he]
      exact hω'
    rw [ih (ω ^ 2) (evenPart x (2 ^ t)) (by rw [evenPart_length]) hsq,
      ih (ω ^ 2) (List.zipWith (· * ·) (factorList ω (2 ^ t)) (oddPart x (2 ^ t)))
        (by rw [twiddledOdd_length]) hsq]
    show Except.ok (interleave _ _) = _
    congr 1
    exact interleave_DFT ω x (by positivity) hlen2 hω'


/-! ## FFT success on power-of-two lengths -/

/-- On power-of-two lengths the FFT always succeeds (for any twiddle root),
returning a list of the input's length. -/
lemma FFT_ok_of_pow2 :
    ∀ (n : ℕ) (x : List R) (ω : R), x.length = n → pow2b n = true →
      ∃ y : List R, FFT ω x = .ok y ∧ y.length = n := by
  intro n
  induction n using Nat.strong_induction_on with
  | _ n ih =>
    intro x ω hx hp
    subst hx
    rcases Nat.lt_or_ge x.length 2 with h2 | h2
    · have h0 : x.length ≠ 0 := by
        intro h
        rw [h] at hp
        simp [pow2b] at hp
      have h1 : x.length = 1 := by omega
      rw [FFT, dif_neg h0, dif_neg (by rw [h1]; simp [pow2b]), dif_pos (by omega)]
      exact ⟨[x.getD 0 0], rfl, by simp [h1]⟩
    · have hstep := pow2b_two_step x.length h2
      rw [hp] at hstep
      have hmod : x.length % 2 = 0 := by
        have := ((Bool.and_eq_true _ _).mp hstep.symm).1
        simpa using this
      have hhp : pow2b (x.length / 2) = true := ((Bool.and_eq_true _ _).mp hstep.symm).2
      obtain ⟨a, ha, hal⟩ := ih (x.length / 2) (by omega) (evenPart x (x.length / 2)) (ω ^ 2)
        (evenPart_length _ _) hhp
      obtain ⟨b, hb, hbl⟩ := ih (x.length / 2) (by omega)
        (List.zipWith (· * ·) (factorList ω (x.length / 2)) (oddPart x (x.length / 2))) (ω ^ 2)
        (twiddledOdd_length ω x _) hhp
      refine ⟨interleave a b, ?_, ?_⟩
      · rw [FFT, dif_neg (by omega), dif_neg (by rw [hp]; simp), dif_neg (by omega), ha, hb]
        rfl
      · rw [interleave_length a b (by rw [hal, hbl]), hal]
        omega

lemma oddPart_getD (x : List R) {M k : ℕ} (h : k < M) :
    (oddPart x M).getD k 0 = x.getD k 0 - x.getD (k + M) 0 :=
  getD_map_range h

lemma factorList_getD (ω : R) {M k : ℕ} (h : k < M) :
    (factorList ω M).getD k 0 = ω ^ k :=
  getD_map_range h

/-! ## Orthogonality of the DFT characters and the inverse transform -/

variable {K : Type} [Field K]

lemma IDFT_length (ωi : K) (X : List K) : (IDFT ωi X).length = X.length := by
  simp [IDFT]

lemma IDFT_getD (ωi : K) (X : List K) {n : ℕ} (h : n < X.length) :
    (IDFT ωi X).getD n 0 = idftCoef ωi X n :=
  getD_map_range h

/-- A geometric sum over a nontrivial `N`-th root of unity vanishes. -/
lemma sum_pow_eq_zero {z : K} (hz : z ≠ 1) {N : ℕ} (hN : z ^ N = 1) :
    ∑ k ∈ Finset.range N, z ^ k = 0 := by
  rw [geom_sum_eq hz, hN, sub_self, zero_div]

/-- Orthogonality of DFT characters: summing `ω⁻¹^(k*n) * ω^(k*m)` over one
period vanishes unless `m = n`, where it gives `N`. -/
lemma orth (ω : K) (N m n : ℕ) (hω0 : ω ≠ 0) (hN1 : ω ^ N = 1)
    (hprim : ∀ j, 0 < j → j < N → ω ^ j ≠ 1) (hm : m < N) (hn : n < N) :
    ∑ k ∈ Finset.range N, ω⁻¹ ^ (k * n) * ω ^ (k * m)
      = if m = n then (N : K) else 0 := by
  rcases eq_or_ne m n with rfl | hne
  · rw [if_pos rfl]
    have hone : ∀ k ∈ Finset.range N, ω⁻¹ ^ (k * m) * ω ^ (k * m) = 1 := by
      intro k _
      rw [← mul_pow, inv_mul_cancel₀ hω0, one_pow]
    rw [Finset.sum_congr rfl hone, Finset.sum_const, Finset.card_range, nsmul_eq_mul, mul_one]
  · rw [if_neg hne]
    rcases Nat.lt_or_ge m n with hlt | hge
    · have key : ∀ k ∈ Finset.range N,
          ω⁻¹ ^ (k * n) * ω ^ (k * m) = (ω⁻¹ ^ (n - m)) ^ k := by
        intro k _
        have hsplit : k * n = k * m + k * (n - m) := by
          have hnm : n = m + (n - m) := by omega
          calc k * n = k * (m + (n - m)) := by rw [← hnm]
            _ = k * m + k * (n - m) := by ring
        rw [hsplit, pow_add]
        have hcancel : ω⁻¹ ^ (k * m) * ω ^ (k * m) = 1 := by
          rw [← mul_pow, inv_mul_cancel₀ hω0, one_pow]
        calc ω⁻¹ ^ (k * m) * ω⁻¹ ^ (k * (n - m)) * ω ^ (k * m)
            = ω⁻¹ ^ (k * m) * ω ^ (k * m) * ω⁻¹ ^ (k * (n - m)) := by ring
          _ = ω⁻¹ ^ (k * (n - m)) := by rw [hcancel, one_mul]
          _ = (ω⁻¹ ^ (n - m)) ^ k := by rw [← pow_mul, mul_comm k (n - m), pow_mul]
      rw [Finset.sum_congr rfl key]
      refine sum_pow_eq_zero ?_ ?_
      · intro hz
        have hone : ω ^ (n - m) = 1 := by
          have h1 : (ω ^ (n - m))⁻¹ = 1 := by rw [← inv_pow, hz]
          calc ω ^ (n - m) = ((ω ^ (n - m))⁻¹)⁻¹ := (inv_inv _).symm
            _ = 1 := by rw [h1, inv_one]
        exact hprim (n - m) (by omega) (by omega) hone
      · rw [← pow_mul, mul_comm (n - m) N, pow_mul, inv_pow, hN1, inv_one, one_pow]
    · have hlt : n < m := by omega
      have key : ∀ k ∈ Finset.range N,
          ω⁻¹ ^ (k * n) * ω ^ (k * m) = (ω ^ (m - n)) ^ k := by
        intro k _
        have hsplit : k * m = k * n + k * (m - n) := by
          have hmn : m = n + (m - n) := by omega
          calc k * m = k * (n + (m - n)) := by rw [← hmn]
            _ = k * n + k * (m - n) := by ring
        rw [hsplit, pow_add]
        have hcancel : ω⁻¹ ^ (k * n) * ω ^ (k * n) = 1 := by
          rw [← mul_pow, inv_mul_cancel₀ hω0, one_pow]
        calc ω⁻¹ ^ (k * n) * (ω ^ (k * n) * ω ^ (k * (m - n)))
            = ω⁻¹ ^ (k * n) * ω ^ (k * n) * ω ^ (k * (m - n)) := by ring
          _ = ω ^ (k * (m - n)) := by rw [hcancel, one_mul]
          _ = (ω ^ (m - n)) ^ k := by rw [← pow_mul, mul_comm k (m - n), pow_mul]
      rw [Finset.sum_congr rfl key]
      refine sum_pow_eq_zero (hprim (m - n) (by omega) (by omega)) ?_
      rw [← pow_mul, mul_comm (m - n) N, pow_mul, hN1, one_pow]

/-- Orthogonality with the first exponent reduced modulo the period. -/
lemma orthMod (ω : K) (N n : ℕ) (m : ℕ) (hω0 : ω ≠ 0) (hN1 : ω ^ N = 1)
    (hprim : ∀ j, 0 < j → j < N → ω ^ j ≠ 1) (hn : n < N) :
    ∑ k ∈ Finset.range N, ω⁻¹ ^ (k * n) * ω ^ (k * m)
      = if m % N = n then (N : K) else 0 := by
  have hNpos : 0 < N := by omega
  have hred : ∀ k ∈ Finset.range N, ω⁻¹ ^ (k * n) * ω ^ (k * m)
      = ω⁻¹ ^ (k * n) * ω ^ (k * (m % N)) := by
    intro k _
    have hm : m = N * (m / N) + m % N := (Nat.div_add_mod m N).symm
    have hsplit : k * m = N * (k * (m / N)) + k * (m % N) := by
      calc k * m = k * (N * (m / N) + m % N) := by rw [← hm]
        _ = N * (k * (m / N)) + k * (m % N) := by ring
    have h1 : ω ^ (N * (k * (m / N))) = 1 := by
      rw [pow_mul, hN1, one_pow]
    rw [hsplit, pow_add, h1, one_mul]
  rw [Finset.sum_congr rfl hred, orth ω N (m % N) n hω0 hN1 hprim (Nat.mod_lt m hNpos) hn]

/-- `IDFT(DFT(x)) = x`: the inverse transform inverts the forward transform,
over any field in which the length is invertible (vacuous for empty input)
and with a primitive root of unity of order the length. -/
lemma IDFT_DFT (ω : K) (x : List K) (hN1 : ω ^ x.length = 1)
    (hprim : ∀ j, 0 < j → j < x.length → ω ^ j ≠ 1)
    (hcast : (x.length : K) ≠ 0 ∨ x.length = 0) :
    IDFT ω⁻¹ (DFT ω x) = x := by
  rcases Nat.eq_zero_or_pos x.length with h0 | hpos
  · have hx : x = [] := List.length_eq_zero.mp h0
    subst hx
    rfl
  have hω0 : ω ≠ 0 := by
    intro h
    rw [h, zero_pow (by omega : x.length ≠ 0)] at hN1
    exact zero_ne_one hN1
  have hNK : (x.length : K) ≠ 0 := by
    rcases hcast with h | h
    · exact h
    · omega
  have hdl : (DFT ω x).length = x.length := DFT_length ω x
  apply list_ext_getD
  · rw [IDFT_length, hdl]
  · intro i hi
    rw [IDFT_length, hdl] at hi
    rw [IDFT_getD ω⁻¹ (DFT ω x) (by rw [hdl]; exact hi)]
    unfold idftCoef
    rw [hdl]
    have expand : ∀ k ∈ Finset.range x.length,
        (x.length : K)⁻¹ * ω⁻¹ ^ (k * i) * (DFT ω x).getD k 0
          = ∑ m ∈ Finset.range x.length,
              (x.length : K)⁻¹ * (ω⁻¹ ^ (k * i) * ω ^ (k * m)) * x.getD m 0 := by
      intro k hk
      rw [DFT_getD ω x (Finset.mem_range.mp hk)]
      unfold dftCoef
      rw [Finset.mul_sum]
      exact Finset.sum_congr rfl fun m _ => by ring
    rw [Finset.sum_congr rfl expand, Finset.sum_comm]
    have collapse : ∀ m ∈ Finset.range x.length,
        ∑ k ∈ Finset.range x.length,
            (x.length : K)⁻¹ * (ω⁻¹ ^ (k * i) * ω ^ (k * m)) * x.getD m 0
          = if m = i then x.getD m 0 else 0 := by
      intro m hm
      have hfactor : ∑ k ∈ Finset.range x.length,
          (x.length : K)⁻¹ * (ω⁻¹ ^ (k * i) * ω ^ (k * m)) * x.getD m 0
            = (x.length : K)⁻¹
              * (∑ k ∈ Finset.range x.length, ω⁻¹ ^ (k * i) * ω ^ (k * m))
              * x.getD m 0 := by
        rw [Finset.mul_sum, Finset.sum_mul]
      rw [hfactor, orth ω x.length m i hω0 hN1 hprim (Finset.mem_range.mp hm) hi]
      rcases eq_or_ne m i with rfl | hne
      · rw [if_pos rfl, if_pos rfl, inv_mul_cancel₀ hNK, one_mul]
      · rw [if_neg hne, if_neg hne, mul_zero, zero_mul]
    rw [Finset.sum_congr rfl collapse,
      Finset.sum_ite_eq' (Finset.range x.length) i (fun m => x.getD m 0),
      if_pos (Finset.mem_range.mpr hi)]

/-- The convolution theorem, as the source's multiplication demo uses it:
pointwise multiplication of DFTs followed by the IDFT equals the circular
convolution. -/
lemma IDFT_mul_DFT (ω : K) (a b : List K) (N : ℕ) (ha : a.length = N)
    (hb : b.length = N) (hN1 : ω ^ N = 1)
    (hprim : ∀ j, 0 < j → j < N → ω ^ j ≠ 1) (hNK : (N : K) ≠ 0) :
    IDFT ω⁻¹ (List.zipWith (· * ·) (DFT ω a) (DFT ω b)) = circConv a b N := by
  have hNpos : 0 < N := by
    by_contra h
    exact hNK (by rw [show N = 0 from by omega]; simp)
  have hω0 : ω ≠ 0 := by
    intro h
    rw [h, zero_pow (by omega : N ≠ 0)] at hN1
    exact zero_ne_one hN1
  have hzl : (List.zipWith (· * ·) (DFT ω a) (DFT ω b)).length = N := by
    rw [List.length_zipWith, DFT_length, DFT_length, ha, hb, min_self]
  have hzd : ∀ k, k < N →
      (List.zipWith (· * ·) (DFT ω a) (DFT ω b)).getD k 0
        = dftCoef ω a k * dftCoef ω b k := by
    intro k hk
    rw [List.getD_eq_getElem _ _ (by rw [hzl]; exact hk), List.getElem_zipWith]
    rw [← List.getD_eq_getElem (DFT ω a) 0 (by rw [DFT_length, ha]; exact hk),
      ← List.getD_eq_getElem (DFT ω b) 0 (by rw [DFT_length, hb]; exact hk),
      DFT_getD ω a (by rw [ha]; exact hk), DFT_getD ω b (by rw [hb]; exact hk)]
  apply list_ext_getD
  · rw [IDFT_length, hzl, circConv, List.length_map, List.length_range]
  · intro n hn
    rw [IDFT_length, hzl] at hn
    rw [IDFT_getD ω⁻¹ _ (by rw [hzl]; exact hn)]
    unfold idftCoef
    rw [hzl]
    have hcc : (circConv a b N).getD n 0
        = ∑ p ∈ Finset.range N, ∑ q ∈ Finset.range N,
            if (p + q) % N = n then a.getD p 0 * b.getD q 0 else 0 := by
      unfold circConv
      exact getD_map_range hn
    rw [hcc]
    have expand : ∀ k ∈ Finset.range N,
        (N : K)⁻¹ * ω⁻¹ ^ (k * n)
            * (List.zipWith (· * ·) (DFT ω a) (DFT ω b)).getD k 0
          = ∑ p ∈ Finset.range N, ∑ q ∈ Finset.range N,
              (N : K)⁻¹ * (ω⁻¹ ^ (k * n) * ω ^ (k * (p + q)))
                * (a.getD p 0 * b.getD q 0) := by
      intro k hk
      rw [hzd k (Finset.mem_range.mp hk)]
      unfold dftCoef
      rw [ha, hb, Finset.sum_mul_sum, Finset.mul_sum]
      refine Finset.sum_congr rfl fun p _ => ?_
      rw [Finset.mul_sum]
      refine Finset.sum_congr rfl fun q _ => ?_
      rw [show k * (p + q) = k * p + k * q from by ring, pow_add]
      ring
    rw [Finset.sum_congr rfl expand, Finset.sum_comm]
    refine Finset.sum_congr rfl fun p hp => ?_
    rw [Finset.sum_comm]
    refine Finset.sum_congr rfl fun q hq => ?_
    have hfactor : ∑ k ∈ Finset.range N,
        (N : K)⁻¹ * (ω⁻¹ ^ (k * n) * ω ^ (k * (p + q))) * (a.getD p 0 * b.getD q 0)
          = (N : K)⁻¹
            * (∑ k ∈ Finset.range N, ω⁻¹ ^ (k * n) * ω ^ (k * (p + q)))
            * (a.getD p 0 * b.getD q 0) := by
      rw [Finset.mul_sum, Finset.sum_mul]
    rw [hfactor, orthMod ω N n (p + q) hω0 hN1 hprim hn]
    rcases eq_or_ne ((p + q) % N) n with he | hne
    · rw [if_pos he, if_pos he, inv_mul_cancel₀ hNK, one_mul]
    · rw [if_neg hne, if_neg hne, mul_zero, zero_mul]


/-- The source's multiplication demo evaluated in exact arithmetic: with a
primitive eighth root of unity it returns exactly `1234 * 5678`. -/
lemma fftMulDemo_eq (K : Type) [Field K] (ω : K) (hω : ω ^ 4 = -1)
    (hprim : ∀ j, 0 < j → j < 8 → ω ^ j ≠ 1) (h8 : (8 : K) ≠ 0) :
    fftMulDemo K ω = .ok (7006652 : K) := by
  have hN1 : ω ^ 8 = 1 := by
    rw [show (8 : ℕ) = 4 * 2 from rfl, pow_mul, hω, neg_one_sq]
  have ha : ([4,3,2,1,0,0,0,0] : List K).length = 2 ^ 3 := rfl
  have hb : ([8,7,6,5,0,0,0,0] : List K).length = 2 ^ 3 := rfl
  have hωhyp : 1 ≤ 3 → ω ^ 2 ^ (3 - 1) = -1 := fun _ => by norm_num [hω]
  have hfa := FFT_eq_DFT_aux 3 ω _ ha hωhyp
  have hfb := FFT_eq_DFT_aux 3 ω _ hb hωhyp
  unfold fftMulDemo
  rw [hfa, hfb]
  show Except.ok _ = _
  congr 1
  rw [IDFT_mul_DFT ω _ _ 8 (by rfl) (by rfl) hN1 hprim h8]
  norm_num [circConv, Finset.sum_range_succ, List.range_succ, List.getD]


/-! ## Claim theorems for the Fourier kernels -/

instance : Fact (Nat.Prime 5) := ⟨by norm_num⟩

instance : Fact (Nat.Prime 41) := ⟨by norm_num⟩

/-- C1: for every sequence `x` whose length `N = 2^t` is an exact power of
two, `FFT(x)` equals `DFT(x)` elementwise, exactly, over exact arithmetic:
the twiddle root `ω` stands for `exp (-2*π*i/N)`, whose defining algebraic
property is `ω^(N/2) = -1`. -/
theorem claim_C1_fft_matches_dft {R : Type} [CommRing R] (t : ℕ) (ω : R) (x : List R)
    (hlen : x.length = 2 ^ t) (hω : 1 ≤ t → ω ^ 2 ^ (t - 1) = -1) :
    FFT ω x = Except.ok (DFT ω x) :=
  FFT_eq_DFT_aux t ω x hlen hω

/-- Witness for C1: length 4 = 2^2 with the primitive fourth root 2 of
`ZMod 5` (`2^2 = -1`). -/
theorem claim_C1_witness :
    ([1, 2, 3, 4] : List (ZMod 5)).length = 2 ^ 2
      ∧ FFT (2 : ZMod 5) [1, 2, 3, 4] = Except.ok (DFT (2 : ZMod 5) [1, 2, 3, 4]) :=
  ⟨rfl, claim_C1_fft_matches_dft 2 (2 : ZMod 5) [1, 2, 3, 4] rfl (fun _ => by decide)⟩

/-- C2: `IDFT(DFT(x)) = x` for every sequence `x`, exactly, over exact
arithmetic: the DFT root `ω` stands for `exp (-2*π*i/N)` (an honest
primitive `N`-th root of unity with `N` invertible — vacuous for `N = 0`),
and the IDFT root `exp (2*π*i/N)` is its inverse `ω⁻¹`. -/
theorem claim_C2_idft_dft_roundtrip {K : Type} [Field K] (ω : K) (x : List K)
    (hN1 : ω ^ x.length = 1)
    (hprim : ∀ j, 0 < j → j < x.length → ω ^ j ≠ 1)
    (hcast : (x.length : K) ≠ 0 ∨ x.length = 0) :
    IDFT ω⁻¹ (DFT ω x) = x :=
  IDFT_DFT ω x hN1 hprim hcast

/-- Witness for C2: the length-4 round trip over `ZMod 5` with the
primitive fourth root 2. -/
theorem claim_C2_witness :
    (2 : ZMod 5) ^ ([1, 2, 3, 4] : List (ZMod 5)).length = 1
      ∧ IDFT (2 : ZMod 5)⁻¹ (DFT (2 : ZMod 5) [1, 2, 3, 4]) = [1, 2, 3, 4] :=
  ⟨by decide, claim_C2_idft_dft_roundtrip (2 : ZMod 5) [1, 2, 3, 4] (by decide)
    (fun j h1 h2 => by
      have h4 : j < 4 := h2
      interval_cases j <;> decide) (Or.inl (by decide))⟩

/-- C4: on power-of-two length `N = 2*M > 1` the FFT performs exactly the
decimation-in-frequency recursion: it builds `even[k] = x[k] + x[k+M]`,
`odd[k] = x[k] - x[k+M]` and twiddles `factor[k] = ω^k` (`exp (-2πik/N)`),
recurses on `even` and on `factor * odd` (at half length the root is `ω^2`),
and interleaves the sub-results `a`, `b` as `result[2j] = a[j]`,
`result[2j+1] = b[j]` — an interleave, not a concatenation; on a singleton
it returns the single element unchanged. -/
theorem claim_C4_dif_recursion {R : Type} [CommRing R] (ω : R) (x : List R) (M : ℕ)
    (hM : 1 ≤ M) (hlen : x.length = 2 * M) (hp : pow2b x.length = true) :
    (FFT ω x = (FFT (ω ^ 2) (evenPart x M)).bind fun a =>
        (FFT (ω ^ 2) (List.zipWith (· * ·) (factorList ω M) (oddPart x M))).bind fun b =>
          Except.ok (interleave a b))
    ∧ (∀ k, k < M → (evenPart x M).getD k 0 = x.getD k 0 + x.getD (k + M) 0
        ∧ (oddPart x M).getD k 0 = x.getD k 0 - x.getD (k + M) 0
        ∧ (factorList ω M).getD k 0 = ω ^ k)
    ∧ (∀ (a b : List R) (j : ℕ), a.length = b.length → j < a.length →
        (interleave a b).getD (2 * j) 0 = a.getD j 0
          ∧ (interleave a b).getD (2 * j + 1) 0 = b.getD j 0)
    ∧ (∀ e : R, FFT ω [e] = Except.ok [e]) := by
  refine ⟨?_, ?_, ?_, ?_⟩
  · rw [FFT, dif_neg (by omega), dif_neg (by rw [hp]; simp), dif_neg (by omega),
      show x.length / 2 = M from by omega]
  · intro k hk
    exact ⟨evenPart_getD x hk, oddPart_getD x hk, factorList_getD ω hk⟩
  · intro a b j hab hj
    exact ⟨interleave_getD_even a b j hab hj,
      interleave_getD_odd a b j hab (by rw [← hab]; exact hj)⟩
  · intro e
    rw [FFT, dif_neg (by simp), dif_neg (by simp [pow2b]), dif_pos (by simp)]
    rfl

/-- Witness for C4: hypotheses discharged at length 4 over `ZMod 5`; the
extracted fact is the singleton base case at the element 3. -/
theorem claim_C4_witness :
    (1 : ℕ) ≤ 2 ∧ FFT (2 : ZMod 5) [(3 : ZMod 5)] = Except.ok [(3 : ZMod 5)] :=
  ⟨by decide,
    (claim_C4_dif_recursion (2 : ZMod 5) [1, 2, 3, 4] 2 (by decide) rfl (pow2b_pow 2)).2.2.2 3⟩

/-- C5: multiplying the digit sequences of 1234 and 5678 (digit-reversed,
zero-padded to length 8) by FFT, pointwise multiplication and IDFT recovers
exactly `1234 * 5678 = 7006652`: in exact arithmetic the recovered dot
product with the powers of ten is exactly this integer, so the source's
final rounding of the real part changes nothing (zero error).  `ω` stands
for `exp (-2*π*i/8)`, an honest primitive eighth root of unity. -/
theorem claim_C5_fft_multiplication (K : Type) [Field K] (ω : K) (hω : ω ^ 4 = -1)
    (hprim : ∀ j, 0 < j → j < 8 → ω ^ j ≠ 1) (h8 : (8 : K) ≠ 0) :
    fftMulDemo K ω = Except.ok ((1234 : K) * 5678)
      ∧ (1234 : K) * 5678 = 7006652 := by
  refine ⟨?_, by norm_num⟩
  rw [fftMulDemo_eq K ω hω hprim h8]
  norm_num

/-- Witness for C5: the primitive eighth root 14 of `ZMod 41`
(`14^4 = -1 mod 41`). -/
theorem claim_C5_witness :
    (14 : ZMod 41) ^ 4 = -1
      ∧ fftMulDemo (ZMod 41) 14 = Except.ok ((1234 : ZMod 41) * 5678) :=
  ⟨by decide,
    (claim_C5_fft_multiplication (ZMod 41) 14 (by decide)
      (fun j h1 h2 => by interval_cases j <;> decide) (by decide)).1⟩

/-- C7: for nonempty input, the FFT raises exactly when the length is not a
power of two — it raises `AssertionError` from the precondition check, and
it returns a value whenever the length is a power of two (never truncating
or padding). -/
theorem claim_C7_precondition {R : Type} [CommRing R] (ω : R) (x : List R)
    (h1 : 1 ≤ x.length) :
    (pow2b x.length = false → FFT ω x = Except.error PyErr.assertionError)
    ∧ ((∃ e, FFT ω x = Except.error e) ↔ ¬ ∃ t : ℕ, x.length = 2 ^ t) := by
  constructor
  · intro hp
    rw [FFT, dif_neg (by omega), dif_pos hp]
  · constructor
    · rintro ⟨e, he⟩ ⟨t, ht⟩
      obtain ⟨y, hy, -⟩ := FFT_ok_of_pow2 x.length x ω rfl (by rw [ht]; exact pow2b_pow t)
      rw [hy] at he
      simp at he
    · intro hnp
      have hp : pow2b x.length = false := by
        cases hpb : pow2b x.length
        · rfl
        · exact absurd ((pow2b_iff x.length).mp hpb) hnp
      exact ⟨PyErr.assertionError, by rw [FFT, dif_neg (by omega), dif_pos hp]⟩

/-- Witness for C7: length 6 is not a power of two, and the call fails with
`AssertionError`. -/
theorem claim_C7_witness :
    (1 : ℕ) ≤ ([1, 1, 1, 1, 1, 1] : List ℤ).length
      ∧ FFT (0 : ℤ) [1, 1, 1, 1, 1, 1] = Except.error PyErr.assertionError := by
  refine ⟨by decide, (claim_C7_precondition (0 : ℤ) [1, 1, 1, 1, 1, 1] (by decide)).1 ?_⟩
  rw [show ([1, 1, 1, 1, 1, 1] : List ℤ).length = 6 from rfl, pow2b_two_step 6 (by omega)]
  norm_num
  rw [pow2b_two_step 3 (by omega)]
  norm_num

/-- C8: every invocation of the inverse FFT fails with the
`NotImplementedError`; it never returns a value. -/
theorem claim_C8_ifft_unimplemented {R : Type} [CommRing R] (X : List R) :
    IFFT X = Except.error PyErr.notImplementedError :=
  rfl

/-- C9: for a sequence of any length (power of two or not), the DFT is a
total function — no error path — returning a sequence of the same length
whose `k`-th entry is `∑ n, ω^(k*n) * x[n]` with `ω = exp (-2*π*i/N)`. -/
theorem claim_C9_dft_contract {R : Type} [CommRing R] (ω : R) (x : List R) :
    (DFT ω x).length = x.length
    ∧ ∀ k, k < x.length →
        (DFT ω x).getD k 0 = ∑ n ∈ Finset.range x.length, ω ^ (k * n) * x.getD n 0 :=
  ⟨DFT_length ω x, fun _ hk => DFT_getD ω x hk⟩

/-- Witness for C9: the middle coefficient of a length-3 integer DFT with
base 2 (length 3 is not a power of two; the DFT still succeeds). -/
theorem claim_C9_witness :
    (1 : ℕ) < ([1, 2, 3] : List ℤ).length
      ∧ (DFT (2 : ℤ) [1, 2, 3]).getD 1 0
          = ∑ n ∈ Finset.range ([1, 2, 3] : List ℤ).length,
              (2 : ℤ) ^ (1 * n) * ([1, 2, 3] : List ℤ).getD n 0 :=
  ⟨by decide, (claim_C9_dft_contract (2 : ℤ) [1, 2, 3]).2 1 (by decide)⟩

/-- C10: on the empty sequence the FFT fails, but not through the documented
power-of-two assertion: `math.log2 0` raises `ValueError` before the
`is_integer` test and before the `N <= 1` base case can be reached, so the
base case is unreachable for empty input and FFT is only meaningfully
defined for `N ≥ 1`. -/
theorem claim_C10_empty_input {R : Type} [CommRing R] (ω : R) :
    FFT ω ([] : List R) = Except.error PyErr.valueError
    ∧ PyErr.valueError ≠ PyErr.assertionError := by
  constructor
  · rw [FFT, dif_pos (show ([] : List R).length = 0 from rfl)]
  · intro h
    cases h

end Fourier

namespace Poisson

open Matrix

/-! ## Symmetry of the system matrix -/

lemma dmat_apply_symm (K : Type) [Ring K] (n : ℕ) (i j : Fin n) :
    dmat K n i j = dmat K n j i := by
  unfold dmat
  simp only [Matrix.of_apply]
  split_ifs <;> first | rfl | omega

lemma dmat_transpose (K : Type) [Ring K] (n : ℕ) : (dmat K n)ᵀ = dmat K n := by
  ext i j
  rw [Matrix.transpose_apply, dmat_apply_symm]

/-- The system matrix equals its transpose. -/
lemma systemMatrix_transpose (K : Type) [CommRing K] (N : ℕ) :
    (setupSystemMatrix K N)ᵀ = setupSystemMatrix K N := by
  unfold setupSystemMatrix
  rw [Matrix.transpose_neg, Matrix.transpose_add,
    ← Matrix.kroneckerMap_transpose, ← Matrix.kroneckerMap_transpose,
    Matrix.transpose_one, dmat_transpose]

/-! ## The quadratic form of the second-difference block -/

variable {K : Type} [LinearOrderedCommRing K]

lemma negdmat_eq (n : ℕ) :
    -(dmat K n) = (2 : K) • (1 : Matrix (Fin n) (Fin n) K) - shiftUp K n - (shiftUp K n)ᵀ := by
  ext i j
  simp only [Matrix.neg_apply, Matrix.sub_apply, Matrix.smul_apply, Matrix.one_apply,
    Matrix.transpose_apply, dmat, shiftUp, Matrix.of_apply, Fin.ext_iff, smul_eq_mul]
  split_ifs <;> first | ring1 | (exfalso; omega)

lemma shiftUp_mulVec (n : ℕ) (y : Fin (n + 1) → K) :
    ∀ i : Fin n, (shiftUp K (n + 1)).mulVec y i.castSucc = y i.succ := by
  intro i
  unfold Matrix.mulVec Matrix.dotProduct shiftUp
  simp only [Matrix.of_apply, ite_mul, one_mul, zero_mul]
  rw [Finset.sum_eq_single i.succ]
  · simp [Fin.val_succ, Fin.coe_castSucc]
  · intro j _ hj
    rw [if_neg]
    intro hc
    rw [Fin.coe_castSucc] at hc
    exact hj (by rw [Fin.ext_iff, Fin.val_succ]; omega)
  · intro h
    exact absurd (Finset.mem_univ _) h

lemma shiftUp_mulVec_last (n : ℕ) (y : Fin (n + 1) → K) :
    (shiftUp K (n + 1)).mulVec y (Fin.last n) = 0 := by
  unfold Matrix.mulVec Matrix.dotProduct shiftUp
  simp only [Matrix.of_apply, ite_mul, one_mul, zero_mul]
  apply Finset.sum_eq_zero
  intro j _
  rw [if_neg]
  have := j.isLt
  simp only [Fin.val_last]
  omega

lemma shiftUp_quad (n : ℕ) (y : Fin (n + 1) → K) :
    Matrix.dotProduct y ((shiftUp K (n + 1)).mulVec y)
      = ∑ i : Fin n, y i.castSucc * y i.succ := by
  unfold Matrix.dotProduct
  rw [Fin.sum_univ_castSucc]
  rw [shiftUp_mulVec_last, mul_zero, add_zero]
  exact Finset.sum_congr rfl fun i _ => by rw [shiftUp_mulVec]

lemma dot_mulVec_symm {ι A : Type} [Fintype ι] [CommRing A] (M : Matrix ι ι A)
    (hM : Mᵀ = M) (u w : ι → A) :
    Matrix.dotProduct u (M.mulVec w) = Matrix.dotProduct w (M.mulVec u) := by
  rw [Matrix.dotProduct_mulVec, Matrix.dotProduct_comm, ← hM, Matrix.vecMul_transpose, hM]

/-- The quadratic form of `-dmat` is a sum of boundary and difference
squares. -/
lemma negdmat_quad (n : ℕ) (y : Fin (n + 1) → K) :
    Matrix.dotProduct y ((-(dmat K (n + 1))).mulVec y)
      = y 0 ^ 2 + y (Fin.last n) ^ 2 + ∑ i : Fin n, (y i.castSucc - y i.succ) ^ 2 := by
  have hshift : Matrix.dotProduct y (((shiftUp K (n + 1))ᵀ).mulVec y)
      = ∑ i : Fin n, y i.castSucc * y i.succ := by
    rw [Matrix.mulVec_transpose, Matrix.dotProduct_comm, ← Matrix.dotProduct_mulVec,
      shiftUp_quad]
  have hexp : ∑ i : Fin n, (y i.castSucc - y i.succ) ^ 2
      = (∑ i : Fin n, y i.castSucc * y i.castSucc)
        - 2 * ∑ i : Fin n, y i.castSucc * y i.succ
        + ∑ i : Fin n, y i.succ * y i.succ := by
    rw [Finset.mul_sum, ← Finset.sum_sub_distrib, ← Finset.sum_add_distrib]
    exact Finset.sum_congr rfl fun i _ => by ring
  have hcast : ∑ i : Fin n, y i.castSucc * y i.castSucc
      = (∑ i : Fin (n + 1), y i * y i) - y (Fin.last n) * y (Fin.last n) := by
    rw [Fin.sum_univ_castSucc (f := fun i => y i * y i)]
    ring
  have hsucc : ∑ i : Fin n, y i.succ * y i.succ
      = (∑ i : Fin (n + 1), y i * y i) - y 0 * y 0 := by
    rw [Fin.sum_univ_succ (f := fun i => y i * y i)]
    ring
  rw [negdmat_eq, Matrix.sub_mulVec, Matrix.sub_mulVec, Matrix.smul_mulVec_assoc,
    Matrix.one_mulVec, Matrix.dotProduct_sub, Matrix.dotProduct_sub,
    Matrix.dotProduct_smul, shiftUp_quad, hshift, hexp, hcast, hsucc]
  unfold Matrix.dotProduct
  rw [smul_eq_mul]
  ring


lemma negdmat_quad_nonneg (n : ℕ) (y : Fin n → K) :
    0 ≤ Matrix.dotProduct y ((-(dmat K n)).mulVec y) := by
  cases n with
  | zero => simp [Matrix.dotProduct]
  | succ m =>
    rw [negdmat_quad]
    exact add_nonneg (add_nonneg (sq_nonneg _) (sq_nonneg _))
      (Finset.sum_nonneg fun i _ => sq_nonneg _)

lemma negdmat_quad_pos (n : ℕ) (y : Fin n → K) (hy : y ≠ 0) :
    0 < Matrix.dotProduct y ((-(dmat K n)).mulVec y) := by
  cases n with
  | zero => exact absurd (funext fun i => i.elim0) hy
  | succ m =>
    rcases (negdmat_quad_nonneg (m + 1) y).lt_or_eq with h | h
    · exact h
    · exfalso
      apply hy
      have heq : y 0 ^ 2 + y (Fin.last m) ^ 2
          + ∑ i : Fin m, (y i.castSucc - y i.succ) ^ 2 = 0 :=
        (negdmat_quad m y).symm.trans h.symm
      have ha := sq_nonneg (y 0)
      have hb := sq_nonneg (y (Fin.last m))
      have hc : (0 : K) ≤ ∑ i : Fin m, (y i.castSucc - y i.succ) ^ 2 :=
        Finset.sum_nonneg fun i _ => sq_nonneg _
      have hy0 : y 0 = 0 := by
        have h0 : y 0 ^ 2 = 0 := by linarith
        exact pow_eq_zero_iff (two_ne_zero) |>.mp h0
      have hsum : ∑ i : Fin m, (y i.castSucc - y i.succ) ^ 2 = 0 := by linarith
      have hdiff : ∀ i : Fin m, y i.castSucc = y i.succ := by
        intro i
        have hz := (Finset.sum_eq_zero_iff_of_nonneg
          (fun i _ => sq_nonneg (y i.castSucc - y i.succ))).mp hsum i (Finset.mem_univ i)
        have := pow_eq_zero_iff (two_ne_zero) |>.mp hz
        linarith [sub_eq_zero.mp this]
      funext p
      rw [Pi.zero_apply]
      induction p using Fin.induction with
      | zero => exact hy0
      | succ i ih => rw [← hdiff i]; exact ih

/-! ## Kronecker structure of the quadratic form -/

lemma kron_left_mulVec {n : ℕ} (M : Matrix (Fin n) (Fin n) K) (x : Fin n × Fin n → K)
    (i j : Fin n) :
    (Matrix.kroneckerMap (· * ·) M (1 : Matrix (Fin n) (Fin n) K)).mulVec x (i, j)
      = ∑ k, M i k * x (k, j) := by
  unfold Matrix.mulVec Matrix.dotProduct Matrix.kroneckerMap
  rw [Fintype.sum_prod_type]
  simp only [Matrix.of_apply, Matrix.one_apply, mul_ite, mul_one, mul_zero, ite_mul, zero_mul]
  refine Finset.sum_congr rfl fun k _ => ?_
  rw [Finset.sum_ite_eq]
  simp

lemma kron_right_mulVec {n : ℕ} (M : Matrix (Fin n) (Fin n) K) (x : Fin n × Fin n → K)
    (i j : Fin n) :
    (Matrix.kroneckerMap (· * ·) (1 : Matrix (Fin n) (Fin n) K) M).mulVec x (i, j)
      = ∑ l, M j l * x (i, l) := by
  unfold Matrix.mulVec Matrix.dotProduct Matrix.kroneckerMap
  rw [Fintype.sum_prod_type, Finset.sum_comm]
  simp only [Matrix.of_apply, Matrix.one_apply, ite_mul, one_mul, zero_mul]
  refine Finset.sum_congr rfl fun l _ => ?_
  rw [Finset.sum_ite_eq]
  simp

lemma kron_left_quad {n : ℕ} (M : Matrix (Fin n) (Fin n) K) (x : Fin n × Fin n → K) :
    Matrix.dotProduct x ((Matrix.kroneckerMap (· * ·) M
        (1 : Matrix (Fin n) (Fin n) K)).mulVec x)
      = ∑ j, Matrix.dotProduct (fun i => x (i, j)) (M.mulVec fun i => x (i, j)) := by
  unfold Matrix.dotProduct
  rw [Fintype.sum_prod_type, Finset.sum_comm]
  refine Finset.sum_congr rfl fun j _ => Finset.sum_congr rfl fun i _ => ?_
  rw [kron_left_mulVec]
  rfl

lemma kron_right_quad {n : ℕ} (M : Matrix (Fin n) (Fin n) K) (x : Fin n × Fin n → K) :
    Matrix.dotProduct x ((Matrix.kroneckerMap (· * ·)
        (1 : Matrix (Fin n) (Fin n) K) M).mulVec x)
      = ∑ i, Matrix.dotProduct (fun j => x (i, j)) (M.mulVec fun j => x (i, j)) := by
  unfold Matrix.dotProduct
  rw [Fintype.sum_prod_type]
  refine Finset.sum_congr rfl fun i _ => Finset.sum_congr rfl fun j _ => ?_
  rw [kron_right_mulVec]
  rfl

/-- The assembled matrix splits as a Kronecker sum of the negated blocks. -/
lemma systemMatrix_split (N : ℕ) :
    setupSystemMatrix K N
      = Matrix.kroneckerMap (· * ·) (-(dmat K (N - 2)))
          (1 : Matrix (Fin (N - 2)) (Fin (N - 2)) K)
        + Matrix.kroneckerMap (· * ·) (1 : Matrix (Fin (N - 2)) (Fin (N - 2)) K)
          (-(dmat K (N - 2))) := by
  unfold setupSystemMatrix
  ext p q
  simp only [Matrix.neg_apply, Matrix.add_apply, Matrix.kroneckerMap_apply]
  ring

lemma systemMatrix_quad_nonneg (N : ℕ) (x : Fin (N - 2) × Fin (N - 2) → K) :
    0 ≤ Matrix.dotProduct x ((setupSystemMatrix K N).mulVec x) := by
  rw [systemMatrix_split, Matrix.add_mulVec, Matrix.dotProduct_add, kron_left_quad,
    kron_right_quad]
  have h1 : (0 : K) ≤ ∑ j, Matrix.dotProduct (fun i => x (i, j))
      ((-(dmat K (N - 2))).mulVec fun i => x (i, j)) :=
    Finset.sum_nonneg fun j _ => negdmat_quad_nonneg _ _
  have h2 : (0 : K) ≤ ∑ i, Matrix.dotProduct (fun j => x (i, j))
      ((-(dmat K (N - 2))).mulVec fun j => x (i, j)) :=
    Finset.sum_nonneg fun i _ => negdmat_quad_nonneg _ _
  linarith

/-- The quadratic form of the assembled matrix is positive definite. -/
lemma systemMatrix_quad_pos (N : ℕ) (x : Fin (N - 2) × Fin (N - 2) → K) (hx : x ≠ 0) :
    0 < Matrix.dotProduct x ((setupSystemMatrix K N).mulVec x) := by
  obtain ⟨⟨i0, j0⟩, hx0⟩ : ∃ p, x p ≠ 0 := by
    by_contra h
    push_neg at h
    exact hx (funext fun p => h p)
  have hcol : (fun i => x (i, j0)) ≠ 0 := by
    intro hc
    exact hx0 (by calc x (i0, j0) = (fun i => x (i, j0)) i0 := rfl
      _ = 0 := by rw [hc]; rfl)
  rw [systemMatrix_split, Matrix.add_mulVec, Matrix.dotProduct_add, kron_left_quad,
    kron_right_quad]
  have h1 : (0 : K) < ∑ j, Matrix.dotProduct (fun i => x (i, j))
      ((-(dmat K (N - 2))).mulVec fun i => x (i, j)) :=
    Finset.sum_pos' (fun j _ => negdmat_quad_nonneg _ _)
      ⟨j0, Finset.mem_univ _, negdmat_quad_pos _ _ hcol⟩
  have h2 : (0 : K) ≤ ∑ i, Matrix.dotProduct (fun j => x (i, j))
      ((-(dmat K (N - 2))).mulVec fun j => x (i, j)) :=
    Finset.sum_nonneg fun i _ => negdmat_quad_nonneg _ _
  linarith


/-! ## Complex eigenvalues of the system matrix -/

lemma systemMatrix_complex_entry (N : ℕ) (p q : Fin (N - 2) × Fin (N - 2)) :
    setupSystemMatrix ℂ N p q = ((setupSystemMatrix ℝ N p q : ℝ) : ℂ) := by
  rcases p with ⟨i, j⟩
  rcases q with ⟨k, l⟩
  unfold setupSystemMatrix dmat
  simp only [Matrix.neg_apply, Matrix.add_apply, Matrix.kroneckerMap_apply, Matrix.of_apply,
    Matrix.one_apply]
  split_ifs <;> push_cast <;> ring

lemma systemMatrix_complex_mulVec (N : ℕ) (a : Fin (N - 2) × Fin (N - 2) → ℝ) :
    (setupSystemMatrix ℂ N).mulVec (fun p => ((a p : ℝ) : ℂ))
      = fun p => (((setupSystemMatrix ℝ N).mulVec a p : ℝ) : ℂ) := by
  funext p
  unfold Matrix.mulVec Matrix.dotProduct
  push_cast
  refine Finset.sum_congr rfl fun q _ => ?_
  rw [systemMatrix_complex_entry]

lemma systemMatrix_complex_quad (N : ℕ) (a : Fin (N - 2) × Fin (N - 2) → ℝ) :
    Matrix.dotProduct (fun p => ((a p : ℝ) : ℂ))
        ((setupSystemMatrix ℂ N).mulVec (fun p => ((a p : ℝ) : ℂ)))
      = ((Matrix.dotProduct a ((setupSystemMatrix ℝ N).mulVec a) : ℝ) : ℂ) := by
  rw [systemMatrix_complex_mulVec]
  unfold Matrix.dotProduct
  push_cast
  rfl

/-- Every complex eigenvalue of the assembled matrix is real and strictly
positive. -/
lemma systemMatrix_eigen_real_pos (N : ℕ) (μ : ℂ)
    (v : Fin (N - 2) × Fin (N - 2) → ℂ) (hv : v ≠ 0)
    (heig : (setupSystemMatrix ℂ N).mulVec v = μ • v) :
    μ.im = 0 ∧ 0 < μ.re := by
  set S := setupSystemMatrix ℂ N with hS
  set a : Fin (N - 2) × Fin (N - 2) → ℝ := fun p => (v p).re with ha
  set b : Fin (N - 2) × Fin (N - 2) → ℝ := fun p => (v p).im with hb
  set va : Fin (N - 2) × Fin (N - 2) → ℂ := fun p => ((a p : ℝ) : ℂ) with hva
  set vb : Fin (N - 2) × Fin (N - 2) → ℂ := fun p => ((b p : ℝ) : ℂ) with hvb
  have hv_split : v = va + Complex.I • vb := by
    funext p
    rw [Pi.add_apply, Pi.smul_apply, smul_eq_mul]
    rw [← Complex.re_add_im (v p)]
    push_cast
    ring
  have hstar : star v = va - Complex.I • vb := by
    funext p
    rw [Pi.star_apply, Pi.sub_apply, Pi.smul_apply, smul_eq_mul]
    apply Complex.ext
    · simp [va, vb, a, b]
    · simp [va, vb, a, b]
  have hs_val : Matrix.dotProduct (star v) v
      = ((∑ p, Complex.normSq (v p) : ℝ) : ℂ) := by
    unfold Matrix.dotProduct
    push_cast
    refine Finset.sum_congr rfl fun p _ => ?_
    rw [Pi.star_apply]
    exact (Complex.normSq_eq_conj_mul_self).symm
  have hs_pos : (0 : ℝ) < ∑ p, Complex.normSq (v p) := by
    obtain ⟨p0, hp0⟩ : ∃ p, v p ≠ 0 := by
      by_contra h
      push_neg at h
      exact hv (funext fun p => h p)
    exact Finset.sum_pos' (fun p _ => Complex.normSq_nonneg _)
      ⟨p0, Finset.mem_univ _, Complex.normSq_pos.mpr hp0⟩
  have hsym : Matrix.dotProduct va (S.mulVec vb) = Matrix.dotProduct vb (S.mulVec va) :=
    dot_mulVec_symm S (systemMatrix_transpose ℂ N) va vb
  have hq2 : Matrix.dotProduct (star v) (S.mulVec v)
      = Matrix.dotProduct va (S.mulVec va) + Matrix.dotProduct vb (S.mulVec vb) := by
    rw [hstar, hv_split, Matrix.mulVec_add, Matrix.mulVec_smul,
      Matrix.sub_dotProduct, Matrix.dotProduct_add, Matrix.dotProduct_add,
      Matrix.smul_dotProduct, Matrix.smul_dotProduct, Matrix.dotProduct_smul,
      Matrix.dotProduct_smul, hsym]
    simp only [smul_eq_mul]
    linear_combination (-(Matrix.dotProduct vb (S.mulVec vb))) * Complex.I_mul_I
  have hq1 : Matrix.dotProduct (star v) (S.mulVec v)
      = μ * ((∑ p, Complex.normSq (v p) : ℝ) : ℂ) := by
    rw [heig, Matrix.dotProduct_smul, smul_eq_mul, hs_val]
  have hQ : Matrix.dotProduct (star v) (S.mulVec v)
      = ((Matrix.dotProduct a ((setupSystemMatrix ℝ N).mulVec a)
          + Matrix.dotProduct b ((setupSystemMatrix ℝ N).mulVec b) : ℝ) : ℂ) := by
    rw [hq2, hS, systemMatrix_complex_quad, systemMatrix_complex_quad]
    push_cast
    ring
  have hμval : μ = ((Matrix.dotProduct a ((setupSystemMatrix ℝ N).mulVec a)
      + Matrix.dotProduct b ((setupSystemMatrix ℝ N).mulVec b))
        / (∑ p, Complex.normSq (v p)) : ℝ) := by
    have hsne : ((∑ p, Complex.normSq (v p) : ℝ) : ℂ) ≠ 0 :=
      Complex.ofReal_ne_zero.mpr hs_pos.ne'
    rw [Complex.ofReal_div]
    rw [eq_div_iff hsne]
    rw [← hq1, hQ]
  have hab : a ≠ 0 ∨ b ≠ 0 := by
    by_contra h
    push_neg at h
    apply hv
    funext p
    apply Complex.ext
    · calc (v p).re = a p := rfl
        _ = 0 := by rw [h.1]; rfl
    · calc (v p).im = b p := rfl
        _ = 0 := by rw [h.2]; rfl
  have hnum : 0 < Matrix.dotProduct a ((setupSystemMatrix ℝ N).mulVec a)
      + Matrix.dotProduct b ((setupSystemMatrix ℝ N).mulVec b) := by
    rcases hab with h | h
    · have h1 := systemMatrix_quad_pos (K := ℝ) N a h
      have h2 := systemMatrix_quad_nonneg (K := ℝ) N b
      linarith
    · have h1 := systemMatrix_quad_nonneg (K := ℝ) N a
      have h2 := systemMatrix_quad_pos (K := ℝ) N b h
      linarith
  constructor
  · rw [hμval]
    exact Complex.ofReal_im _
  · rw [hμval, Complex.ofReal_re]
    exact div_pos hnum hs_pos


/-! ## Claim theorems for the Poisson system matrix -/

/-- Counterexample to C3 as stated: at `N = 4` the all-ones vector is a
nonzero eigenvector of `setupSystemMatrix 4` with eigenvalue `2 > 0`, and
its quadratic form there is `8`, not negative — the matrix is not
negative-definite and its eigenvalues are not all strictly negative. -/
theorem claim_C3_counterexample :
    (fun _ => (1 : ℚ)) ≠ (0 : Fin (4 - 2) × Fin (4 - 2) → ℚ)
    ∧ (setupSystemMatrix ℚ 4).mulVec (fun _ => (1 : ℚ)) = (2 : ℚ) • (fun _ => (1 : ℚ))
    ∧ Matrix.dotProduct (fun _ => (1 : ℚ))
        ((setupSystemMatrix ℚ 4).mulVec (fun _ => (1 : ℚ))) = 8
    ∧ ¬ ((2 : ℚ) < 0) ∧ ¬ ((8 : ℚ) < 0) := by
  refine ⟨?_, ?_, ?_, by norm_num, by norm_num⟩
  · intro h
    exact absurd (congrFun h (0, 0)) one_ne_zero
  · funext p
    rcases p with ⟨i, j⟩
    fin_cases i <;> fin_cases j <;>
      simp [setupSystemMatrix, dmat, Matrix.mulVec, Matrix.dotProduct, Fintype.sum_prod_type,
        Fin.sum_univ_two, Matrix.kroneckerMap, Matrix.one_apply, Fin.ext_iff] <;> norm_num
  · simp [setupSystemMatrix, dmat, Matrix.mulVec, Matrix.dotProduct, Fintype.sum_prod_type,
      Fin.sum_univ_two, Matrix.kroneckerMap, Matrix.one_apply, Fin.ext_iff]
    norm_num

/-- C3 (amended: the matrix is positive-, not negative-, definite): for
every grid size `N ≥ 3`, `setupSystemMatrix N` is an
`(N-2)^2 × (N-2)^2` symmetric positive-definite matrix: it equals its
transpose, its quadratic form is strictly positive on every nonzero
vector, and every complex eigenvalue is real and strictly positive. -/
theorem claim_C3_system_matrix_spd (N : ℕ) (hN : 3 ≤ N) :
    Fintype.card (Fin (N - 2) × Fin (N - 2)) = (N - 2) ^ 2
    ∧ (setupSystemMatrix ℚ N)ᵀ = setupSystemMatrix ℚ N
    ∧ (∀ x : Fin (N - 2) × Fin (N - 2) → ℚ, x ≠ 0 →
        0 < Matrix.dotProduct x ((setupSystemMatrix ℚ N).mulVec x))
    ∧ (∀ (μ : ℂ) (v : Fin (N - 2) × Fin (N - 2) → ℂ), v ≠ 0 →
        (setupSystemMatrix ℂ N).mulVec v = μ • v → μ.im = 0 ∧ 0 < μ.re) :=
  ⟨by rw [Fintype.card_prod, Fintype.card_fin, sq],
    systemMatrix_transpose ℚ N,
    fun x hx => systemMatrix_quad_pos N x hx,
    fun μ v hv he => systemMatrix_eigen_real_pos N μ v hv he⟩

/-- Witness for the amended C3 at `N = 3`: size and symmetry of the
concrete 1×1 system matrix. -/
theorem claim_C3_witness :
    Fintype.card (Fin (3 - 2) × Fin (3 - 2)) = (3 - 2) ^ 2
    ∧ (setupSystemMatrix ℚ 3)ᵀ = setupSystemMatrix ℚ 3 :=
  ⟨(claim_C3_system_matrix_spd 3 (by norm_num)).1,
    (claim_C3_system_matrix_spd 3 (by norm_num)).2.1⟩


/-! ## Evaluation of the RHS vector assembly -/

lemma flat_mod (n i j : ℕ) (hj : j < n) : (i * n + j) % n = j := by
  rw [add_comm, Nat.add_mul_mod_self_right, Nat.mod_eq_of_lt hj]

lemma flat_div (n i j : ℕ) (hn : 0 < n) (hj : j < n) : (i * n + j) / n = i := by
  rw [add_comm, Nat.add_mul_div_right _ _ hn, Nat.div_eq_of_lt hj, zero_add]

/-- A strided-slice addition at a hit index `k = start + m*step`. -/
lemma addSlice_hit (b : ℕ → ℚ) (s st len : ℕ) (v : ℕ → ℚ) (k m : ℕ)
    (hst : 0 < st) (hk : k = s + m * st) (hm : m < len) :
    addSlice b s st len v k = b k + v m := by
  subst hk
  unfold addSlice
  have hsub : s + m * st - s = m * st := Nat.add_sub_cancel_left s (m * st)
  have hcond : s ≤ s + m * st ∧ (s + m * st - s) % st = 0 ∧ (s + m * st - s) / st < len := by
    rw [hsub]
    exact ⟨Nat.le_add_right _ _, Nat.mul_mod_left m st,
      by rw [Nat.mul_div_cancel _ hst]; exact hm⟩
  rw [if_pos hcond, hsub, Nat.mul_div_cancel _ hst]

/-- A strided-slice addition at an index outside the slice. -/
lemma addSlice_miss (b : ℕ → ℚ) (s st len : ℕ) (v : ℕ → ℚ) (k : ℕ)
    (h : ¬ (s ≤ k ∧ (k - s) % st = 0 ∧ (k - s) / st < len)) :
    addSlice b s st len v k = b k := by
  unfold addSlice
  rw [if_neg h]

/-- The bottom slice `b[:(n)] += v` touches flat index `i*n+j` iff `i = 0`. -/
lemma slice_bot_eval (n : ℕ) (b v : ℕ → ℚ) (i j : ℕ) (hn : 2 ≤ n) (hi : i < n)
    (hj : j < n) :
    addSlice b 0 1 n v (i * n + j) = b (i * n + j) + (if i = 0 then v j else 0) := by
  rcases Nat.eq_zero_or_pos i with rfl | hi0
  · rw [if_pos rfl]
    exact addSlice_hit b 0 1 n v (0 * n + j) j one_pos (by ring) hj
  · rw [if_neg (by omega), add_zero]
    apply addSlice_miss
    rintro ⟨-, -, hlt⟩
    rw [Nat.sub_zero, Nat.div_one] at hlt
    have hge : n ≤ i * n := Nat.le_mul_of_pos_left n hi0
    have := Nat.le_add_right (i * n) j
    omega

/-- The right slice `b[(n-1) :: n] += v` touches `i*n+j` iff `j = n-1`. -/
lemma slice_right_eval (n : ℕ) (b v : ℕ → ℚ) (i j : ℕ) (hn : 2 ≤ n) (hi : i < n)
    (hj : j < n) :
    addSlice b (n - 1) n n v (i * n + j)
      = b (i * n + j) + (if j = n - 1 then v i else 0) := by
  obtain ⟨m, rfl⟩ : ∃ m, n = m + 2 := ⟨n - 2, by omega⟩
  rcases eq_or_ne j (m + 1) with rfl | hne
  · rw [if_pos (by omega)]
    exact addSlice_hit b (m + 1) (m + 2) (m + 2) v (i * (m + 2) + (m + 1)) i
      (by omega) (by ring) hi
  · rw [if_neg (by omega), add_zero]
    apply addSlice_miss
    rintro ⟨hle, hmod, -⟩
    rcases Nat.eq_zero_or_pos i with rfl | hi0
    · rw [Nat.zero_mul, Nat.zero_add] at hle hmod
      omega
    · obtain ⟨i', rfl⟩ : ∃ i', i = i' + 1 := ⟨i - 1, by omega⟩
      rw [show m + 2 - 1 = m + 1 from by omega] at hmod
      have hexp : (i' + 1) * (m + 2) + j - (m + 1) = i' * (m + 2) + (j + 1) := by
        have h1 : (i' + 1) * (m + 2) + j = i' * (m + 2) + (m + 2 + j) := by ring
        rw [h1, Nat.add_sub_assoc (by omega)]
        congr 1
        omega
      rw [hexp, flat_mod _ _ _ (by omega)] at hmod
      omega

/-- The top slice `b[(n-1)*n:] += v` touches `i*n+j` iff `i = n-1`. -/
lemma slice_top_eval (n : ℕ) (b v : ℕ → ℚ) (i j : ℕ) (hn : 2 ≤ n) (hi : i < n)
    (hj : j < n) :
    addSlice b ((n - 1) * n) 1 n v (i * n + j)
      = b (i * n + j) + (if i = n - 1 then v j else 0) := by
  obtain ⟨m, rfl⟩ : ∃ m, n = m + 2 := ⟨n - 2, by omega⟩
  rcases eq_or_ne i (m + 1) with rfl | hne
  · rw [if_pos (by omega)]
    refine addSlice_hit b ((m + 2 - 1) * (m + 2)) 1 (m + 2) v _ j one_pos ?_ hj
    have h1 : m + 2 - 1 = m + 1 := by omega
    rw [h1]
    ring
  · rw [if_neg (by omega), add_zero]
    apply addSlice_miss
    rintro ⟨hle, -, -⟩
    have h1 : m + 2 - 1 = m + 1 := by omega
    rw [h1] at hle
    have hile : i + 1 ≤ m + 1 := by omega
    have h2 : (i + 1) * (m + 2) ≤ (m + 1) * (m + 2) := Nat.mul_le_mul_right _ hile
    have h3 : (i + 1) * (m + 2) = i * (m + 2) + (m + 2) := by ring
    omega

/-- The left slice `b[0 :: n] += v` touches `i*n+j` iff `j = 0`. -/
lemma slice_left_eval (n : ℕ) (b v : ℕ → ℚ) (i j : ℕ) (hn : 2 ≤ n) (hi : i < n)
    (hj : j < n) :
    addSlice b 0 n n v (i * n + j) = b (i * n + j) + (if j = 0 then v i else 0) := by
  rcases Nat.eq_zero_or_pos j with rfl | hj0
  · rw [if_pos rfl]
    exact addSlice_hit b 0 n n v (i * n + 0) i (by omega) (by ring) hi
  · rw [if_neg (by omega), add_zero]
    apply addSlice_miss
    rintro ⟨-, hmod, -⟩
    rw [Nat.sub_zero, flat_mod _ _ _ hj] at hmod
    omega


/-- Closed form of the assembled RHS vector at interior node `(i, j)`
(flat index `i*(N-2)+j`): the source value plus the additively injected
boundary contributions of the slices that contain the index. -/
lemma setupRHSVector_eval (N : ℕ) (hN : 4 ≤ N) (source : ℚ → ℚ → ℚ)
    (bot right top left : ℚ → ℚ) (i j : ℕ) (hi : i < N - 2) (hj : j < N - 2) :
    setupRHSVector N source bot right top left (i * (N - 2) + j)
      = source (gridVal N i) (gridVal N j)
        + (if i = 0 then bot (gridVal N j) else 0)
        + (if j = N - 3 then right (gridVal N i) else 0)
        + (if i = N - 3 then top (gridVal N j) else 0)
        + (if j = 0 then left (gridVal N i) else 0) := by
  have hn : 2 ≤ N - 2 := by omega
  have h3 : N - 3 = (N - 2) - 1 := by omega
  unfold setupRHSVector
  rw [h3]
  rw [slice_left_eval _ _ _ i j hn hi hj, slice_top_eval _ _ _ i j hn hi hj,
    slice_right_eval _ _ _ i j hn hi hj, slice_bot_eval _ _ _ i j hn hi hj]
  unfold evalSourceFlat
  rw [flat_div _ _ _ (by omega) hj, flat_mod _ _ _ hj, zero_add]

/-- C6: every interior entry of the RHS vector is the source value at that
node plus additively injected boundary contributions (never overwriting),
and each of the four corner unknowns of the interior grid receives a
contribution from exactly one of bottom/top and exactly one of left/right,
with no boundary value counted twice. -/
theorem claim_C6_rhs_assembly (N : ℕ) (hN : 4 ≤ N) (source : ℚ → ℚ → ℚ)
    (bot right top left : ℚ → ℚ) :
    (∀ i j, i < N - 2 → j < N - 2 →
      setupRHSVector N source bot right top left (i * (N - 2) + j)
        = source (gridVal N i) (gridVal N j)
          + (if i = 0 then bot (gridVal N j) else 0)
          + (if j = N - 3 then right (gridVal N i) else 0)
          + (if i = N - 3 then top (gridVal N j) else 0)
          + (if j = 0 then left (gridVal N i) else 0))
    ∧ setupRHSVector N source bot right top left 0
        = source (gridVal N 0) (gridVal N 0) + bot (gridVal N 0) + left (gridVal N 0)
    ∧ setupRHSVector N source bot right top left (N - 3)
        = source (gridVal N 0) (gridVal N (N - 3)) + bot (gridVal N (N - 3))
          + right (gridVal N 0)
    ∧ setupRHSVector N source bot right top left ((N - 3) * (N - 2))
        = source (gridVal N (N - 3)) (gridVal N 0) + top (gridVal N 0)
          + left (gridVal N (N - 3))
    ∧ setupRHSVector N source bot right top left ((N - 3) * (N - 2) + (N - 3))
        = source (gridVal N (N - 3)) (gridVal N (N - 3)) + right (gridVal N (N - 3))
          + top (gridVal N (N - 3)) := by
  have he := setupRHSVector_eval N hN source bot right top left
  refine ⟨fun i j hi hj => he i j hi hj, ?_, ?_, ?_, ?_⟩
  · have h := he 0 0 (by omega) (by omega)
    rw [show (0 : ℕ) * (N - 2) + 0 = 0 from by omega] at h
    rw [h, if_pos rfl, if_neg (by omega), if_neg (by omega), if_pos rfl]
    ring
  · have h := he 0 (N - 3) (by omega) (by omega)
    rw [show (0 : ℕ) * (N - 2) + (N - 3) = N - 3 from by omega] at h
    rw [h, if_pos rfl, if_pos rfl, if_neg (by omega), if_neg (by omega)]
    ring
  · have h := he (N - 3) 0 (by omega) (by omega)
    rw [Nat.add_zero] at h
    rw [h, if_neg (by omega), if_neg (by omega), if_pos rfl, if_pos rfl]
    ring
  · have h := he (N - 3) (N - 3) (by omega) (by omega)
    rw [h, if_neg (by omega), if_pos rfl, if_pos rfl, if_neg (by omega)]
    ring

/-- Witness for C6 at `N = 4` with concrete data functions: the bottom-left
corner receives exactly the source, the bottom and the left contribution. -/
theorem claim_C6_witness :
    (4 : ℕ) ≤ 4
    ∧ setupRHSVector 4 HMul.hMul id id id id 0
        = HMul.hMul (gridVal 4 0) (gridVal 4 0) + id (gridVal 4 0) + id (gridVal 4 0) :=
  ⟨by norm_num, (claim_C6_rhs_assembly 4 (by norm_num) HMul.hMul id id id id).2.1⟩

end Poisson
